import Mathlib

/-!
Shallow embedding of the obsidian-note-list plugin (src/main.tsx, plus the
unnamed sibling source file src/unnamed/part_000) for checking the
natural-language specification against the code.

Modelling choices, each traced to the source:

* `TFile` is identified by its path; the code only ever compares files by
  identity and keys lists by `file.path`.
* `MetadataCache.getFileCache` returns `Option CachedMetadata`, whose `tags`
  field is `Option (List TagCache)`, mirroring the `?.tags` optional chain.
* immutable.js `OrderedMap` is an insertion-ordered association list with
  unique keys; `map.update(k, fn)` updates in place when the key exists and
  appends `(k, fn(undefined))` otherwise.
* immutable.js `Set` is modelled as a duplicate-free list; `.add` appends a
  missing element and is the identity otherwise; only `size` and membership
  are ever consumed by the code.
* `.sortBy((files) => -files.size)` is a stable sort (immutable.js sorts are
  stable) by ascending `-size`, i.e. descending size; it is modelled as the
  stable `List.insertionSort` with the relation `tagCountGE`.
* JS truthiness of the filter string (`!filter`) is modelled explicitly:
  an absent filter and the empty-string filter both count as falsy.
-/

namespace ObsidianNoteList

/-- A markdown file, identified by its vault path. -/
structure TFile where
  path : String
deriving DecidableEq

/-- One entry of a file's tag cache; `tag` is the tag text. -/
structure TagCache where
  tag : String
deriving DecidableEq

/-- The slice of Obsidian's `CachedMetadata` the plugin reads: the optional
tag list. -/
structure CachedMetadata where
  tags : Option (List TagCache)
deriving DecidableEq

/-- The vault, as the plugin sees it: `getMarkdownFiles()` returns the current
markdown file list. -/
structure Vault where
  markdownFiles : List TFile
deriving DecidableEq

def Vault.getMarkdownFiles (v : Vault) : List TFile :=
  v.markdownFiles

/-- The metadata cache: per-file derived metadata, possibly absent. -/
structure MetadataCache where
  getFileCache : TFile → Option CachedMetadata

/-- `(metadataCache.getFileCache(file)?.tags ?? [])` from `getFilesByTag`. -/
def tagsOf (mc : MetadataCache) (f : TFile) : List TagCache :=
  match mc.getFileCache f with
  | none => []
  | some c => c.tags.getD []

/-- `metadataCache.getFileCache(file)?.tags?.some((tag) => tag.tag === filter)`
from the `NoteList` filter: the whole optional chain is falsy when the cache
entry or its tag list is absent. -/
def fileHasTag (mc : MetadataCache) (f : TFile) (t : String) : Bool :=
  match mc.getFileCache f with
  | none => false
  | some c =>
    match c.tags with
    | none => false
    | some ts => ts.any (fun tc => tc.tag = t)

/-- First-match lookup in an insertion-ordered association list (immutable.js
`OrderedMap.get`, and property access on a plain JS object). -/
def alookup {β : Type} : List (String × β) → String → Option β
  | [], _ => none
  | (k, v) :: rest, t => if k = t then some v else alookup rest t

/-- Keys of an association list, in order. -/
def akeys {β : Type} (m : List (String × β)) : List String :=
  m.map Prod.fst

/-- immutable.js `Set.add`: identity when the element is present, append
otherwise. -/
def setAdd (fs : List TFile) (f : TFile) : List TFile :=
  if f ∈ fs then fs else fs ++ [f]

/-- immutable.js `OrderedMap.update(t, (files) => files ? files.add(f) :
Set([f]))`: update in place when the key exists, append a fresh singleton
entry otherwise. -/
def mapUpdate (m : List (String × List TFile)) (t : String) (f : TFile) :
    List (String × List TFile) :=
  match m with
  | [] => [(t, setAdd [] f)]
  | (k, fs) :: rest =>
    if k = t then (k, setAdd fs f) :: rest else (k, fs) :: mapUpdate rest t f

/-- The inner `reduce` of `getFilesByTag`: fold one file's tag list into the
map. -/
def addFileTags (mc : MetadataCache) (m : List (String × List TFile))
    (f : TFile) : List (String × List TFile) :=
  (tagsOf mc f).foldl (fun m tc => mapUpdate m tc.tag f) m

/-- The outer `reduce` of `getFilesByTag`, before sorting: fold every markdown
file into an empty `OrderedMap`. -/
def filesByTagMap (v : Vault) (mc : MetadataCache) :
    List (String × List TFile) :=
  v.getMarkdownFiles.foldl (fun m f => addFileTags mc m f) []

/-- The sort relation of `.sortBy((files) => -files.size)`: ascending in
`-size`, i.e. descending in the file-set size. -/
def tagCountGE (a b : String × List TFile) : Prop :=
  b.2.length ≤ a.2.length

instance : DecidableRel tagCountGE :=
  fun a b => inferInstanceAs (Decidable (b.2.length ≤ a.2.length))

instance : IsTotal (String × List TFile) tagCountGE :=
  ⟨fun a b => (Nat.le_total b.2.length a.2.length).elim Or.inl Or.inr⟩

instance : IsTrans (String × List TFile) tagCountGE :=
  ⟨fun _ _ _ hab hbc => Nat.le_trans hbc hab⟩

/-- `TagList.getFilesByTag`: the tag-to-file-set fold, sorted by descending
file count (stable, as immutable.js sorts are). -/
def getFilesByTag (v : Vault) (mc : MetadataCache) :
    List (String × List TFile) :=
  List.insertionSort tagCountGE (filesByTagMap v mc)

/-- The file set a tag map associates to `t` (`∅` when the key is absent). -/
def tagFiles (m : List (String × List TFile)) (t : String) : List TFile :=
  (alookup m t).getD []

/-- `NoteList`'s `filteredFiles`: `!filter ? files : files.filter(...)`.
JS truthiness makes both an absent filter and the empty-string filter show
every file. -/
def filteredFiles (mc : MetadataCache) (files : List TFile)
    (filter : Option String) : List TFile :=
  match filter with
  | none => files
  | some t => if t = "" then files else files.filter (fun f => fileHasTag mc f t)

/-- Vault file events the code can subscribe to. -/
inductive VaultEvent where
  | create
  | delete
  | rename
  | modify
deriving DecidableEq

/-- The vault events `NoteList` in `src/main.tsx` subscribes a
`setFiles(vault.getMarkdownFiles())` handler to: three identical `create`
registrations (lines 107-115). -/
def noteListVaultSubscriptions : List VaultEvent :=
  [VaultEvent.create, VaultEvent.create, VaultEvent.create]

/-- The vault events `NoteList` in `src/unnamed/part_000` subscribes the same
handler to: `create`, `delete`, `rename`. -/
def noteListVaultSubscriptionsUnnamed : List VaultEvent :=
  [VaultEvent.create, VaultEvent.delete, VaultEvent.rename]

/-- Effect of one vault event on the `files` state: every subscription whose
event fired runs `setFiles(vault.getMarkdownFiles())`; otherwise the state is
untouched. -/
def noteListApplyVaultEvent (subs : List VaultEvent) (v : Vault)
    (files : List TFile) (e : VaultEvent) : List TFile :=
  if e ∈ subs then v.getMarkdownFiles else files

/-- A DOM event as `handleFilterEvent` sees it: either a `CustomEvent` with a
name and a detail, or any other event. -/
inductive DomEvent where
  | custom (name : String) (detail : Option String)
  | plain (name : String)
deriving DecidableEq

/-- The event name of the cross-view filter channel. -/
def setFilterEventName : String :=
  "obsidian-note-list:set-filter"

/-- `NoteList.handleFilterEvent`: on a `CustomEvent`, set the filter to the
event's detail; ignore anything else. -/
def handleFilterEvent (e : DomEvent) (filter : Option String) : Option String :=
  match e with
  | DomEvent.custom _ d => d
  | DomEvent.plain _ => filter

/-- The `useEffect` in `TagList` that fires when its filter changes: it
dispatches exactly one `CustomEvent` carrying the filter as detail. -/
def dispatchSetFilter (f : Option String) : List DomEvent :=
  [DomEvent.custom setFilterEventName f]

/-- The `onClick` of a tag button in `TagList`:
`setFilter(filter === tag ? undefined : tag)`. -/
def toggleFilter (filter : Option String) (tag : String) : Option String :=
  if filter = some tag then none else some tag

/-- The `metadataCache.on("changed", ...)` handler of `TagList`:
`setTags(getFilesByTag())`, discarding the previous tags state. -/
def tagListOnChanged (v : Vault) (mc : MetadataCache)
    (_old : List (String × List TFile)) : List (String × List TFile) :=
  getFilesByTag v mc

/-- What `TagList` renders next to each tag: the pair of the tag text and
`files.size`. -/
def renderTagCounts (tags : List (String × List TFile)) : List (String × Nat) :=
  tags.map (fun p => (p.1, p.2.length))

/-- `DEFAULT_SETTINGS`, as the JS object `{ mySetting: "default" }`. -/
def DEFAULT_SETTINGS : List (String × String) :=
  [("mySetting", "default")]

/-- `Object.assign({}, base, src)`: keys of `base` in order, each taking
`src`'s value when `src` has the key, followed by `src`'s keys absent from
`base`. -/
def objAssign (base src : List (String × String)) : List (String × String) :=
  base.map (fun p => (p.1, (alookup src p.1).getD p.2)) ++
    src.filter (fun p => (alookup base p.1).isNone)

/-- `loadSettings`: `Object.assign({}, DEFAULT_SETTINGS, await loadData())`,
where `loadData` yields the stored blob or `null`. -/
def loadSettings (data : Option (List (String × String))) :
    List (String × String) :=
  objAssign DEFAULT_SETTINGS (data.getD [])

/-- JS property assignment `obj[k] = v`: overwrite in place when the key
exists, append otherwise. -/
def setField (s : List (String × String)) (k v : String) :
    List (String × String) :=
  if (alookup s k).isSome then
    s.map (fun p => if p.1 = k then (k, v) else p)
  else s ++ [(k, v)]

/-- The settings text field's `onChange`:
`this.plugin.settings.mySetting = value`. -/
def onChangeMySetting (s : List (String × String)) (value : String) :
    List (String × String) :=
  setField s "mySetting" value

/-- `saveSettings` hands the settings object verbatim to the host
(`saveData(this.settings)`); the host stores the blob as given. -/
def saveData (s : List (String × String)) : List (String × String) :=
  s

/-- Concrete files for witnesses and counterexamples. -/
def fA : TFile := ⟨"a.md"⟩

def fB : TFile := ⟨"b.md"⟩

/-- A metadata cache with no entries at all. -/
def mcEmpty : MetadataCache :=
  ⟨fun _ => none⟩

/-- A concrete cache: `a.md` carries `#x` and `#y`, `b.md` carries `#x`. -/
def mcTwo : MetadataCache :=
  ⟨fun f =>
    if f = fA then some ⟨some [⟨"#x"⟩, ⟨"#y"⟩]⟩
    else if f = fB then some ⟨some [⟨"#x"⟩]⟩
    else none⟩

/-! ### Helper lemmas about the immutable.js set and ordered-map models -/

lemma mem_setAdd {fs : List TFile} {f g : TFile} :
    g ∈ setAdd fs f ↔ g ∈ fs ∨ g = f := by
  unfold setAdd
  by_cases h : f ∈ fs
  · rw [if_pos h]
    exact ⟨Or.inl, fun hg => hg.elim id (fun he => he ▸ h)⟩
  · rw [if_neg h]
    simp

lemma setAdd_idem (fs : List TFile) (f : TFile) :
    setAdd (setAdd fs f) f = setAdd fs f := by
  unfold setAdd
  by_cases h : f ∈ fs
  · simp [h]
  · simp [h]

lemma setAdd_ne_nil (fs : List TFile) (f : TFile) : setAdd fs f ≠ [] := by
  unfold setAdd
  by_cases h : f ∈ fs
  · rw [if_pos h]
    exact List.ne_nil_of_mem h
  · rw [if_neg h]
    simp

lemma nodup_setAdd {fs : List TFile} (h : fs.Nodup) (f : TFile) :
    (setAdd fs f).Nodup := by
  unfold setAdd
  by_cases hm : f ∈ fs
  · simpa [hm]
  · simp [hm, List.nodup_append, h]

lemma alookup_append {β : Type} {s : List (String × β)} {k : String}
    (h : alookup s k = none) (l : List (String × β)) :
    alookup (s ++ l) k = alookup l k := by
  induction s with
  | nil => rfl
  | cons p rest ih =>
    obtain ⟨k₁, v₁⟩ := p
    by_cases hk : k₁ = k
    · simp [alookup, hk] at h
    · simp only [alookup, List.cons_append, if_neg hk] at h ⊢
      exact ih h

lemma mem_akeys_of_mem {β : Type} {m : List (String × β)} {t : String} {v : β}
    (h : (t, v) ∈ m) : t ∈ akeys m :=
  List.mem_map.mpr ⟨(t, v), h, rfl⟩

lemma alookup_isSome_iff_mem_akeys {β : Type} (m : List (String × β))
    (t : String) : (alookup m t).isSome = true ↔ t ∈ akeys m := by
  induction m with
  | nil => simp [alookup, akeys]
  | cons p rest ih =>
    obtain ⟨k, v⟩ := p
    by_cases hk : k = t
    · simp [alookup, akeys, hk]
    · simp only [alookup, if_neg hk, akeys, List.map_cons, List.mem_cons]
      rw [ih]
      exact ⟨Or.inr, fun h => h.elim (fun he => absurd he.symm hk) id⟩

lemma alookup_eq_none_iff {β : Type} (m : List (String × β)) (t : String) :
    alookup m t = none ↔ t ∉ akeys m := by
  rw [← alookup_isSome_iff_mem_akeys]
  cases alookup m t <;> simp

lemma mem_of_alookup_eq_some {β : Type} {m : List (String × β)} {t : String}
    {v : β} (h : alookup m t = some v) : (t, v) ∈ m := by
  induction m with
  | nil => simp [alookup] at h
  | cons p rest ih =>
    obtain ⟨k, w⟩ := p
    by_cases hk : k = t
    · rw [alookup, if_pos hk] at h
      subst hk
      obtain rfl : w = v := by injection h
      exact List.mem_cons_self _ _
    · rw [alookup, if_neg hk] at h
      exact List.mem_cons_of_mem _ (ih h)

lemma alookup_eq_some_of_mem {β : Type} {m : List (String × β)} {t : String}
    {v : β} (nd : (akeys m).Nodup) (h : (t, v) ∈ m) : alookup m t = some v := by
  induction m with
  | nil => simp at h
  | cons p rest ih =>
    obtain ⟨k, w⟩ := p
    rcases List.mem_cons.mp h with he | hr
    · obtain ⟨rfl, rfl⟩ : k = t ∧ w = v := by
        refine ⟨?_, ?_⟩ <;> injection he.symm
      simp [alookup]
    · have hk : k ≠ t := by
        intro hkt
        subst hkt
        exact (List.nodup_cons.mp (by simpa [akeys] using nd)).1
          (mem_akeys_of_mem hr)
      rw [alookup, if_neg hk]
      exact ih (by simpa [akeys] using (List.nodup_cons.mp
        (by simpa [akeys] using nd)).2) hr

lemma alookup_perm {β : Type} {m₁ m₂ : List (String × β)} (p : m₁.Perm m₂)
    (nd : (akeys m₁).Nodup) (t : String) : alookup m₁ t = alookup m₂ t := by
  have hperm : (akeys m₁).Perm (akeys m₂) := p.map Prod.fst
  have nd₂ : (akeys m₂).Nodup := hperm.nodup_iff.mp nd
  cases h : alookup m₁ t with
  | none =>
    have ht : t ∉ akeys m₂ := fun hmem =>
      ((alookup_eq_none_iff m₁ t).mp h) (hperm.mem_iff.mpr hmem)
    exact ((alookup_eq_none_iff m₂ t).mpr ht).symm
  | some v =>
    exact (alookup_eq_some_of_mem nd₂ (p.mem_iff.mp
      (mem_of_alookup_eq_some h))).symm

lemma alookup_mapUpdate (m : List (String × List TFile)) (t : String)
    (f : TFile) (u : String) :
    alookup (mapUpdate m t f) u =
      if u = t then some (setAdd (tagFiles m t) f) else alookup m u := by
  induction m with
  | nil =>
    by_cases hu : u = t
    · subst hu
      simp [mapUpdate, alookup, tagFiles]
    · have htu : ¬ t = u := fun h => hu h.symm
      simp [mapUpdate, alookup, tagFiles, hu, htu]
  | cons p rest ih =>
    obtain ⟨k, fs⟩ := p
    by_cases hk : k = t
    · subst hk
      by_cases hu : u = k
      · subst hu
        simp [mapUpdate, alookup, tagFiles]
      · have hku : ¬ k = u := fun h => hu h.symm
        simp [mapUpdate, alookup, hu, hku]
    · rw [mapUpdate, if_neg hk]
      by_cases hu : u = k
      · subst hu
        have hut : ¬ u = t := fun h => hk (h ▸ rfl)
        simp [alookup, hut]
      · have hku : ¬ k = u := fun h => hu h.symm
        simp only [alookup, if_neg hku, ih]
        simp [tagFiles, alookup, if_neg hk, hku]

lemma fileHasTag_eq_any (mc : MetadataCache) (f : TFile) (u : String) :
    fileHasTag mc f u = (tagsOf mc f).any (fun tc => tc.tag = u) := by
  unfold fileHasTag tagsOf
  cases mc.getFileCache f with
  | none => rfl
  | some c =>
    obtain ⟨tags⟩ := c
    cases tags with
    | none => rfl
    | some ts => rfl

lemma alookup_foldTags (f : TFile) (ts : List TagCache) :
    ∀ (m : List (String × List TFile)) (u : String),
    alookup (ts.foldl (fun m tc => mapUpdate m tc.tag f) m) u =
      if ts.any (fun tc => tc.tag = u) then some (setAdd (tagFiles m u) f)
      else alookup m u := by
  induction ts with
  | nil =>
    intro m u
    simp
  | cons tc rest ih =>
    intro m u
    rw [List.foldl_cons, ih]
    by_cases hu : tc.tag = u
    · have h1 : tagFiles (mapUpdate m tc.tag f) u = setAdd (tagFiles m u) f := by
        simp [tagFiles, alookup_mapUpdate, hu]
      have h2 : alookup (mapUpdate m tc.tag f) u =
          some (setAdd (tagFiles m u) f) := by
        simp [alookup_mapUpdate, hu]
      rw [hu] at h1 h2
      by_cases hr : rest.any (fun tc => tc.tag = u) = true
      · simp [hr, hu, h1, setAdd_idem]
      · simp [hr, hu, h2]
    · have hut : ¬ u = tc.tag := fun h => hu h.symm
      have h1 : tagFiles (mapUpdate m tc.tag f) u = tagFiles m u := by
        simp [tagFiles, alookup_mapUpdate, hut]
      have h2 : alookup (mapUpdate m tc.tag f) u = alookup m u := by
        simp [alookup_mapUpdate, hut]
      simp [List.any_cons, hu, h1, h2]

lemma alookup_addFileTags (mc : MetadataCache) (m : List (String × List TFile))
    (f : TFile) (u : String) :
    alookup (addFileTags mc m f) u =
      if fileHasTag mc f u then some (setAdd (tagFiles m u) f)
      else alookup m u := by
  rw [addFileTags, alookup_foldTags, fileHasTag_eq_any]

lemma mem_tagFiles_foldFiles (mc : MetadataCache) (files : List TFile) :
    ∀ (m : List (String × List TFile)) (u : String) (g : TFile),
    g ∈ tagFiles (files.foldl (fun m f => addFileTags mc m f) m) u ↔
      g ∈ tagFiles m u ∨ (g ∈ files ∧ fileHasTag mc g u = true) := by
  induction files with
  | nil =>
    intro m u g
    simp
  | cons f rest ih =>
    intro m u g
    rw [List.foldl_cons, ih]
    by_cases hf : fileHasTag mc f u = true
    · have h1 : tagFiles (addFileTags mc m f) u = setAdd (tagFiles m u) f := by
        simp [tagFiles, alookup_addFileTags, hf]
      rw [h1]
      constructor
      · rintro (hg | ⟨hr, hgt⟩)
        · rcases mem_setAdd.mp hg with hm | rfl
          · exact Or.inl hm
          · exact Or.inr ⟨List.mem_cons_self _ _, hf⟩
        · exact Or.inr ⟨List.mem_cons_of_mem _ hr, hgt⟩
      · rintro (hm | ⟨hgr, hgt⟩)
        · exact Or.inl (mem_setAdd.mpr (Or.inl hm))
        · rcases List.mem_cons.mp hgr with rfl | hr
          · exact Or.inl (mem_setAdd.mpr (Or.inr rfl))
          · exact Or.inr ⟨hr, hgt⟩
    · have h1 : tagFiles (addFileTags mc m f) u = tagFiles m u := by
        simp [tagFiles, alookup_addFileTags, hf]
      rw [h1]
      constructor
      · rintro (hm | ⟨hr, hgt⟩)
        · exact Or.inl hm
        · exact Or.inr ⟨List.mem_cons_of_mem _ hr, hgt⟩
      · rintro (hm | ⟨hgr, hgt⟩)
        · exact Or.inl hm
        · rcases List.mem_cons.mp hgr with rfl | hr
          · exact absurd hgt hf
          · exact Or.inr ⟨hr, hgt⟩

lemma isSome_alookup_foldFiles (mc : MetadataCache) (files : List TFile) :
    ∀ (m : List (String × List TFile)) (u : String),
    (alookup (files.foldl (fun m f => addFileTags mc m f) m) u).isSome = true ↔
      (alookup m u).isSome = true ∨
        ∃ f, f ∈ files ∧ fileHasTag mc f u = true := by
  induction files with
  | nil =>
    intro m u
    simp
  | cons f rest ih =>
    intro m u
    rw [List.foldl_cons, ih]
    by_cases hf : fileHasTag mc f u = true
    · have h2 : (alookup (addFileTags mc m f) u).isSome = true := by
        simp [alookup_addFileTags, hf]
      constructor
      · intro _
        exact Or.inr ⟨f, List.mem_cons_self _ _, hf⟩
      · intro _
        exact Or.inl h2
    · have h2 : alookup (addFileTags mc m f) u = alookup m u := by
        simp [alookup_addFileTags, hf]
      rw [h2]
      constructor
      · rintro (hm | ⟨g, hg, hgt⟩)
        · exact Or.inl hm
        · exact Or.inr ⟨g, List.mem_cons_of_mem _ hg, hgt⟩
      · rintro (hm | ⟨g, hg, hgt⟩)
        · exact Or.inl hm
        · rcases List.mem_cons.mp hg with rfl | hr
          · exact absurd hgt hf
          · exact Or.inr ⟨g, hr, hgt⟩

lemma akeys_mapUpdate (m : List (String × List TFile)) (t : String)
    (f : TFile) :
    akeys (mapUpdate m t f) =
      if (alookup m t).isSome then akeys m else akeys m ++ [t] := by
  induction m with
  | nil => simp [mapUpdate, akeys, alookup]
  | cons p rest ih =>
    obtain ⟨k, fs⟩ := p
    by_cases hk : k = t
    · simp [mapUpdate, akeys, alookup, hk]
    · rw [mapUpdate, if_neg hk]
      have hl : alookup ((k, fs) :: rest) t = alookup rest t := by
        simp [alookup, hk]
      rw [hl]
      have hkeys : akeys ((k, fs) :: mapUpdate rest t f) =
          k :: akeys (mapUpdate rest t f) := rfl
      rw [hkeys, ih]
      by_cases hs : (alookup rest t).isSome = true
      · rw [if_pos hs, if_pos hs]
        rfl
      · rw [if_neg hs, if_neg hs]
        rfl

lemma nodup_akeys_mapUpdate {m : List (String × List TFile)}
    (h : (akeys m).Nodup) (t : String) (f : TFile) :
    (akeys (mapUpdate m t f)).Nodup := by
  rw [akeys_mapUpdate]
  by_cases hs : (alookup m t).isSome = true
  · simpa [hs]
  · have ht : t ∉ akeys m := by
      rw [← alookup_isSome_iff_mem_akeys]
      simp [hs]
    rw [if_neg (by simpa using hs)]
    refine List.Nodup.append h (List.nodup_singleton t) ?_
    intro a ha hat
    rw [List.mem_singleton] at hat
    exact ht (hat ▸ ha)

lemma nodup_akeys_foldTags (f : TFile) (ts : List TagCache) :
    ∀ {m : List (String × List TFile)}, (akeys m).Nodup →
    (akeys (ts.foldl (fun m tc => mapUpdate m tc.tag f) m)).Nodup := by
  induction ts with
  | nil =>
    intro m h
    simpa
  | cons tc rest ih =>
    intro m h
    rw [List.foldl_cons]
    exact ih (nodup_akeys_mapUpdate h tc.tag f)

lemma nodup_akeys_foldFiles (mc : MetadataCache) (files : List TFile) :
    ∀ {m : List (String × List TFile)}, (akeys m).Nodup →
    (akeys (files.foldl (fun m f => addFileTags mc m f) m)).Nodup := by
  induction files with
  | nil =>
    intro m h
    simpa
  | cons f rest ih =>
    intro m h
    rw [List.foldl_cons]
    exact ih (nodup_akeys_foldTags f (tagsOf mc f) h)

lemma nodup_akeys_filesByTagMap (v : Vault) (mc : MetadataCache) :
    (akeys (filesByTagMap v mc)).Nodup :=
  nodup_akeys_foldFiles mc v.getMarkdownFiles (by simp [akeys])

lemma getFilesByTag_perm (v : Vault) (mc : MetadataCache) :
    (getFilesByTag v mc).Perm (filesByTagMap v mc) :=
  List.perm_insertionSort tagCountGE _

lemma nodup_akeys_getFilesByTag (v : Vault) (mc : MetadataCache) :
    (akeys (getFilesByTag v mc)).Nodup :=
  (((getFilesByTag_perm v mc).map Prod.fst).nodup_iff).mpr
    (nodup_akeys_filesByTagMap v mc)

lemma alookup_getFilesByTag (v : Vault) (mc : MetadataCache) (t : String) :
    alookup (getFilesByTag v mc) t = alookup (filesByTagMap v mc) t :=
  alookup_perm (getFilesByTag_perm v mc) (nodup_akeys_getFilesByTag v mc) t

lemma mem_tagFiles_getFilesByTag (v : Vault) (mc : MetadataCache) (t : String)
    (g : TFile) :
    g ∈ tagFiles (getFilesByTag v mc) t ↔
      g ∈ v.getMarkdownFiles ∧ fileHasTag mc g t = true := by
  have h : tagFiles (getFilesByTag v mc) t = tagFiles (filesByTagMap v mc) t := by
    simp [tagFiles, alookup_getFilesByTag]
  rw [h, filesByTagMap, mem_tagFiles_foldFiles]
  simp [tagFiles, alookup]

lemma isSome_getFilesByTag (v : Vault) (mc : MetadataCache) (t : String) :
    (alookup (getFilesByTag v mc) t).isSome = true ↔
      ∃ f, f ∈ v.getMarkdownFiles ∧ fileHasTag mc f t = true := by
  rw [alookup_getFilesByTag, filesByTagMap, isSome_alookup_foldFiles]
  simp [alookup]

lemma valuesNodup_mapUpdate (t : String) (f : TFile) :
    ∀ (m : List (String × List TFile)), (∀ p ∈ m, p.2.Nodup) →
    ∀ p ∈ mapUpdate m t f, p.2.Nodup := by
  intro m
  induction m with
  | nil =>
    intro _ p hp
    rw [mapUpdate] at hp
    rcases List.mem_singleton.mp hp with rfl
    exact nodup_setAdd List.nodup_nil f
  | cons q rest ih =>
    obtain ⟨k, fs⟩ := q
    intro h p hp
    by_cases hk : k = t
    · rw [mapUpdate, if_pos hk] at hp
      rcases List.mem_cons.mp hp with rfl | hr
      · exact nodup_setAdd (h (k, fs) (List.mem_cons_self _ _)) f
      · exact h p (List.mem_cons_of_mem _ hr)
    · rw [mapUpdate, if_neg hk] at hp
      rcases List.mem_cons.mp hp with rfl | hr
      · exact h (k, fs) (List.mem_cons_self _ _)
      · exact ih (fun q hq => h q (List.mem_cons_of_mem _ hq)) p hr

lemma valuesNodup_foldTags (f : TFile) (ts : List TagCache) :
    ∀ (m : List (String × List TFile)), (∀ p ∈ m, p.2.Nodup) →
    ∀ p ∈ ts.foldl (fun m tc => mapUpdate m tc.tag f) m, p.2.Nodup := by
  induction ts with
  | nil =>
    intro m h
    simpa using h
  | cons tc rest ih =>
    intro m h
    rw [List.foldl_cons]
    exact ih _ (valuesNodup_mapUpdate tc.tag f m h)

lemma valuesNodup_filesByTagMap (v : Vault) (mc : MetadataCache) :
    ∀ p ∈ filesByTagMap v mc, p.2.Nodup := by
  have main : ∀ (files : List TFile) (m : List (String × List TFile)),
      (∀ p ∈ m, p.2.Nodup) →
      ∀ p ∈ files.foldl (fun m f => addFileTags mc m f) m, p.2.Nodup := by
    intro files
    induction files with
    | nil =>
      intro m h
      simpa using h
    | cons f rest ih =>
      intro m h
      rw [List.foldl_cons]
      exact ih _ (valuesNodup_foldTags f (tagsOf mc f) m h)
  exact main v.getMarkdownFiles [] (by simp)

lemma valuesNodup_getFilesByTag (v : Vault) (mc : MetadataCache) :
    ∀ p ∈ getFilesByTag v mc, p.2.Nodup := fun p hp =>
  valuesNodup_filesByTagMap v mc p ((getFilesByTag_perm v mc).mem_iff.mp hp)

lemma alookup_map_setField (k v : String) :
    ∀ (s : List (String × String)), (alookup s k).isSome = true →
    alookup (s.map (fun p => if p.1 = k then (k, v) else p)) k = some v := by
  intro s
  induction s with
  | nil =>
    intro h
    simp [alookup] at h
  | cons p rest ih =>
    obtain ⟨k₁, v₁⟩ := p
    intro h
    by_cases hk : k₁ = k
    · subst hk
      have hhead : (if ((k₁, v₁) : String × String).1 = k₁ then (k₁, v)
          else (k₁, v₁)) = (k₁, v) := by
        simp
      rw [List.map_cons, hhead]
      simp [alookup]
    · rw [List.map_cons]
      have hhead : (if (k₁, v₁).1 = k then (k, v) else (k₁, v₁)) = (k₁, v₁) := by
        simp [hk]
      rw [hhead]
      simp only [alookup, if_neg hk] at h ⊢
      exact ih h

lemma alookup_setField_self (s : List (String × String)) (k v : String) :
    alookup (setField s k v) k = some v := by
  unfold setField
  by_cases h : (alookup s k).isSome = true
  · rw [if_pos h]
    exact alookup_map_setField k v s h
  · rw [if_neg h]
    have hn : alookup s k = none := by
      cases hh : alookup s k
      · rfl
      · rw [hh] at h
        simp at h
    rw [alookup_append hn]
    simp [alookup]

lemma alookup_loadSettings_mySetting (d : Option (List (String × String))) :
    alookup (loadSettings d) "mySetting" =
      some ((alookup (d.getD []) "mySetting").getD "default") := by
  simp [loadSettings, objAssign, DEFAULT_SETTINGS, alookup]

lemma alookup_filter (p : String × String → Bool) (k : String)
    (hp : ∀ v, p (k, v) = true) :
    ∀ (l : List (String × String)), alookup (l.filter p) k = alookup l k := by
  intro l
  induction l with
  | nil => rfl
  | cons q rest ih =>
    obtain ⟨k₁, v₁⟩ := q
    rw [List.filter_cons]
    by_cases hq : p (k₁, v₁) = true
    · rw [if_pos hq]
      by_cases hk : k₁ = k
      · simp [alookup, hk]
      · simp only [alookup, if_neg hk]
        exact ih
    · rw [if_neg hq]
      have hk : ¬ k₁ = k := fun he => hq (he ▸ hp v₁)
      rw [ih]
      simp only [alookup, if_neg hk]

/-! ### The claims -/

/-- C1: `getFilesByTag` maps each tag `t` to exactly the set of markdown files
whose metadata-cache entry contains a tag equal to `t` (so a file with an
absent cache entry or no tags is in no tag's set), and a tag appears as a key
iff at least one file carries it. -/
theorem getFilesByTag_maps_tags_to_their_files (v : Vault) (mc : MetadataCache)
    (t : String) :
    (∀ g : TFile, g ∈ tagFiles (getFilesByTag v mc) t ↔
        g ∈ v.getMarkdownFiles ∧ fileHasTag mc g t = true)
    ∧ ((alookup (getFilesByTag v mc) t).isSome = true ↔
        ∃ f, f ∈ v.getMarkdownFiles ∧ fileHasTag mc f t = true) :=
  ⟨fun g => mem_tagFiles_getFilesByTag v mc t g, isSome_getFilesByTag v mc t⟩

/-- C2: evaluation showing the bug. `NoteList` in `src/main.tsx` registers its
refresh handler for `create` three times and never for `delete` or `rename`,
so after a `delete` (or `rename`) event the `files` state keeps a stale list
(`[fA]`) while the vault's current markdown file list is `[]`; only `create`
refreshes. The `NoteList` of `src/unnamed/part_000` subscribes to all three
events and does refresh on `delete`. -/
theorem noteList_vault_events_bug :
    noteListApplyVaultEvent noteListVaultSubscriptions (Vault.mk []) [fA]
        VaultEvent.delete = [fA]
    ∧ noteListApplyVaultEvent noteListVaultSubscriptions (Vault.mk []) [fA]
        VaultEvent.rename = [fA]
    ∧ (Vault.mk []).getMarkdownFiles = []
    ∧ noteListApplyVaultEvent noteListVaultSubscriptions (Vault.mk []) [fA]
        VaultEvent.create = []
    ∧ noteListApplyVaultEvent noteListVaultSubscriptionsUnnamed (Vault.mk [])
        [fA] VaultEvent.delete = [] := by
  decide

/-- C3, counterexample: with the filter set to the empty string, the code
renders every file (JS truthiness: `!filter` is `true` for `""`), but the set
of files whose tags include `""` is empty when the only file has no cache
entry. -/
theorem noteList_filter_empty_string_cex :
    filteredFiles mcEmpty [fA] (some "") = [fA]
    ∧ List.filter (fun f => fileHasTag mcEmpty f "") [fA] = []
    ∧ fileHasTag mcEmpty fA "" = false :=
  ⟨rfl, rfl, rfl⟩

/-- C3, amended: when the filter is a NONEMPTY string `t`, the note list
renders exactly those files in its `files` state whose metadata-cache tags
include a tag equal to `t`; when the filter is undefined or the empty string,
it renders every file unchanged. -/
theorem noteList_filter_spec_amended (mc : MetadataCache) (files : List TFile)
    (t : String) :
    filteredFiles mc files none = files
    ∧ filteredFiles mc files (some "") = files
    ∧ (t ≠ "" → ∀ g, (g ∈ filteredFiles mc files (some t) ↔
        g ∈ files ∧ fileHasTag mc g t = true)) := by
  refine ⟨rfl, rfl, fun h g => ?_⟩
  simp [filteredFiles, h, List.mem_filter]

/-- Witness for the amended C3 at a concrete vault: filtering by `"#x"`. -/
theorem noteList_filter_spec_amended_witness :
    ("#x" : String) ≠ ""
    ∧ (fA ∈ filteredFiles mcTwo [fA, fB] (some "#x") ↔
        fA ∈ [fA, fB] ∧ fileHasTag mcTwo fA "#x" = true) :=
  ⟨by decide,
   (noteList_filter_spec_amended mcTwo [fA, fB] "#x").2.2 (by decide) fA⟩

/-- C4: the tag sequence produced by `getFilesByTag` is sorted by descending
file count: every pair of adjacent entries has the earlier file set at least
as large as the later one. -/
theorem getFilesByTag_sorted_by_descending_count (v : Vault)
    (mc : MetadataCache) :
    List.Chain' (fun a b : String × List TFile => b.2.length ≤ a.2.length)
      (getFilesByTag v mc) :=
  List.Pairwise.chain'
    (List.sorted_insertionSort tagCountGE (filesByTagMap v mc))

/-- C5: when the tag list's filter becomes `f` it dispatches exactly one
`obsidian-note-list:set-filter` `CustomEvent` with detail `f`; the note list's
handler sets its filter to the detail of any `CustomEvent` it receives and
ignores other events; hence after the dispatch is handled the note list's
filter equals `f`. -/
theorem filter_channel_faithful (f st : Option String) :
    dispatchSetFilter f = [DomEvent.custom setFilterEventName f]
    ∧ (dispatchSetFilter f).length = 1
    ∧ (dispatchSetFilter f).foldl (fun s e => handleFilterEvent e s) st = f
    ∧ handleFilterEvent (DomEvent.custom setFilterEventName f) st = f
    ∧ ∀ n, handleFilterEvent (DomEvent.plain n) st = st :=
  ⟨rfl, rfl, rfl, rfl, fun _ => rfl⟩

/-- C6: after a metadata-cache `changed` event, every entry of the tag list's
state renders with a count equal to the size of its file set in the current
`getFilesByTag` fold, that file set is duplicate-free, and it holds exactly
the markdown files carrying that tag. -/
theorem tagList_counts_match_fold (v : Vault) (mc : MetadataCache)
    (old : List (String × List TFile)) (t : String) (fs : List TFile)
    (h : (t, fs) ∈ tagListOnChanged v mc old) :
    (t, fs.length) ∈ renderTagCounts (tagListOnChanged v mc old)
    ∧ fs.Nodup
    ∧ ∀ g, (g ∈ fs ↔ g ∈ v.getMarkdownFiles ∧ fileHasTag mc g t = true) := by
  have hg : (t, fs) ∈ getFilesByTag v mc := h
  refine ⟨List.mem_map.mpr ⟨(t, fs), h, rfl⟩,
    valuesNodup_getFilesByTag v mc (t, fs) hg, fun g => ?_⟩
  have hl : alookup (getFilesByTag v mc) t = some fs :=
    alookup_eq_some_of_mem (nodup_akeys_getFilesByTag v mc) hg
  have hfs : tagFiles (getFilesByTag v mc) t = fs := by
    simp [tagFiles, hl]
  rw [← hfs]
  exact mem_tagFiles_getFilesByTag v mc t g

/-- Witness for C6 at a concrete vault of two files both tagged `"#x"`. -/
theorem tagList_counts_match_fold_witness :
    ("#x", ([fA, fB] : List TFile).length) ∈
        renderTagCounts (tagListOnChanged (Vault.mk [fA, fB]) mcTwo [])
    ∧ ([fA, fB] : List TFile).Nodup
    ∧ ∀ g, (g ∈ ([fA, fB] : List TFile) ↔
        g ∈ (Vault.mk [fA, fB]).getMarkdownFiles
          ∧ fileHasTag mcTwo g "#x" = true) :=
  tagList_counts_match_fold (Vault.mk [fA, fB]) mcTwo [] "#x" [fA, fB]
    (by decide)

/-- C7: the settings value is persisted verbatim: `onChange` stores the
entered string unmodified in `settings.mySetting`, and loading the saved blob
yields the same string back (save-then-load is the identity on the entered
text). -/
theorem settings_save_load_round_trip (value : String)
    (s : List (String × String)) :
    alookup (onChangeMySetting s value) "mySetting" = some value
    ∧ alookup (loadSettings (some (saveData (onChangeMySetting s value))))
        "mySetting" = some value := by
  have h1 : alookup (onChangeMySetting s value) "mySetting" = some value :=
    alookup_setField_self s "mySetting" value
  refine ⟨h1, ?_⟩
  rw [saveData, alookup_loadSettings_mySetting]
  simp [h1]

/-- C8: the tag buttons toggle the filter: clicking the current filter's tag
clears it, clicking a different tag selects it; two clicks on `t` restore
`some t` when starting from `some t` and clear the filter otherwise, and two
clicks from the unfiltered state return to the unfiltered state. -/
theorem toggleFilter_toggles (s : Option String) (t : String) :
    toggleFilter s t = (if s = some t then none else some t)
    ∧ toggleFilter (toggleFilter s t) t =
        (if s = some t then some t else none)
    ∧ toggleFilter (toggleFilter none t) t = none := by
  refine ⟨rfl, ?_, ?_⟩
  · by_cases h : s = some t
    · simp [toggleFilter, h]
    · simp [toggleFilter, h]
  · simp [toggleFilter]

/-- C9: `loadSettings` always defines `mySetting`: it equals the stored value
when the blob has the field and `"default"` otherwise (in particular when
`loadData` yields `null`), and every other stored field is carried over
unchanged. -/
theorem loadSettings_mySetting_defaulted
    (data : Option (List (String × String))) :
    alookup (loadSettings data) "mySetting" =
      some ((alookup (data.getD []) "mySetting").getD "default")
    ∧ ∀ k, k ≠ "mySetting" →
        alookup (loadSettings data) k = alookup (data.getD []) k := by
  refine ⟨alookup_loadSettings_mySetting data, fun k hk => ?_⟩
  rw [loadSettings, objAssign, DEFAULT_SETTINGS]
  simp only [List.map_cons, List.map_nil, List.cons_append, List.nil_append]
  have hks : ¬ ("mySetting" : String) = k := fun h => hk h.symm
  simp only [alookup, if_neg hks]
  exact alookup_filter _ k
    (fun v => by simp [alookup, hks]) (data.getD [])

/-- Witness for C9: a blob lacking `mySetting` yields the default, and its
other field is carried over. -/
theorem loadSettings_mySetting_defaulted_witness :
    alookup (loadSettings (some [("other", "x")])) "mySetting" = some "default"
    ∧ alookup (loadSettings (some [("other", "x")])) "other" = some "x" :=
  ⟨(loadSettings_mySetting_defaulted (some [("other", "x")])).1.trans
      (by decide),
   ((loadSettings_mySetting_defaulted (some [("other", "x")])).2 "other"
      (by decide)).trans (by decide)⟩

end ObsidianNoteList
